import Mathlib

/-!
Shallow embedding of the `data_buffer` class of `iobuf.py` (esp32x).

The Python object is a mutable record of a bit `width`, an element list `buf`,
and two cursors `wr_idx` / `rd_idx`.  Mutation is modelled by explicit state
passing: each method takes the receiver and returns the new state, with
fallible methods (those that can raise `IndexError` or fail an `assert`)
returning `Except BufErr`.  Python integers are unbounded non-negative values
here (all values flowing into a buffer are masked or produced by shifts of
non-negative values), so elements are `Nat` and truncation is explicit via
bit masking.
-/

/-- Byte-order argument of the conversion methods.  The source compares the
`mode` string against the literal be and treats every other value as little
endian, so two constructors capture all behaviours. -/
inductive Mode where
  | be
  | le
deriving DecidableEq

/-- Failure conditions of `data_buffer` methods: reading past the end
(`IndexError` in `read`), writing more than one slot past the end
(the `assert` in `write`), the explicitly unsupported 16-to-32 conversion,
and the catch-all width assertions of the conversion / swap methods. -/
inductive BufErr where
  | bufferUnderflow
  | bufferOverrun
  | unsupportedConversion
  | badWidth
deriving DecidableEq

/-- Modelled from the spec: `util.mask` is not under src; section 2 describes
the helper as a pure function producing a bit mask for a given width, i.e.
`2 ^ width - 1`. -/
def util.mask (width : Nat) : Nat := 2 ^ width - 1

/-- Modelled from the spec: `util.mask_val` is not under src; section 4.1 says
`write` masks the value to `width` bits, i.e. bitwise-and with the width mask. -/
def util.mask_val (val width : Nat) : Nat := val &&& util.mask width

/-- Modelled from the spec: `util.swap16` is not under src; section 4.3 says the
two constituent bytes of a 16-bit element are reversed. -/
def util.swap16 (x : Nat) : Nat :=
  ((x &&& 255) <<< 8) ||| ((x >>> 8) &&& 255)

/-- Modelled from the spec: `util.swap32` is not under src; section 4.3 says the
four constituent bytes of a 32-bit element are reversed. -/
def util.swap32 (x : Nat) : Nat :=
  ((x &&& 255) <<< 24) ||| (((x >>> 8) &&& 255) <<< 16) |||
    (((x >>> 16) &&& 255) <<< 8) ||| ((x >>> 24) &&& 255)

/-- State of a `data_buffer` object: element bit width, element list, write
cursor and read cursor (fields keep the source names). -/
structure data_buffer where
  width : Nat
  buf : List Nat
  wr_idx : Nat
  rd_idx : Nat
deriving DecidableEq

/-- Constructor `__init__`: the optional `data` argument becomes a plain list
(`None` behaves like the empty list: both leave `buf` empty after the guarded
comprehension).  Each initial value is masked to the width; the write cursor
starts at the append position and the read cursor at 0. -/
def data_buffer.init (width : Nat) (data : List Nat) : data_buffer :=
  let buf := data.map (fun x => x &&& util.mask width)
  { width := width, buf := buf, wr_idx := buf.length, rd_idx := 0 }

/-- Method `copy`: builds a fresh buffer from the current width and elements. -/
def data_buffer.copy (b : data_buffer) : data_buffer :=
  data_buffer.init b.width b.buf

/-- Method `read`: returns `buf[rd_idx]` and advances the read cursor.  The
indexing raises `IndexError` (buffer underflow) before the cursor update when
`rd_idx` is out of range, so the failing case leaves the state unchanged; the
result is therefore a pair of the read outcome and the post state. -/
def data_buffer.read (b : data_buffer) : Except BufErr Nat × data_buffer :=
  if h : b.rd_idx < b.buf.length then
    (.ok (b.buf.get ⟨b.rd_idx, h⟩), { b with rd_idx := b.rd_idx + 1 })
  else
    (.error .bufferUnderflow, b)

/-- Method `write`: masks the value to the current width, then appends when the
write cursor sits at the end, overwrites in place when it sits inside the list
(without advancing), and fails the overrun `assert` otherwise. -/
def data_buffer.write (b : data_buffer) (val : Nat) : Except BufErr data_buffer :=
  let v := util.mask_val val b.width
  if b.wr_idx = b.buf.length then
    .ok { b with buf := b.buf ++ [v], wr_idx := b.wr_idx + 1 }
  else if b.wr_idx < b.buf.length then
    .ok { b with buf := b.buf.set b.wr_idx v }
  else
    .error .bufferOverrun

/-- Byte decomposition of one 32-bit element in `convert8` (append order of the
four bytes per branch of the loop body). -/
def u8ofu32 (mode : Mode) (x : Nat) : List Nat :=
  match mode with
  | .be => [(x >>> 24) &&& 255, (x >>> 16) &&& 255, (x >>> 8) &&& 255, x &&& 255]
  | .le => [x &&& 255, (x >>> 8) &&& 255, (x >>> 16) &&& 255, (x >>> 24) &&& 255]

/-- Byte decomposition of one 16-bit element in `convert8`. -/
def u8ofu16 (mode : Mode) (x : Nat) : List Nat :=
  match mode with
  | .be => [(x >>> 8) &&& 255, x &&& 255]
  | .le => [x &&& 255, (x >>> 8) &&& 255]

/-- Half decomposition of one 32-bit element in `convert16`. -/
def u16ofu32 (mode : Mode) (x : Nat) : List Nat :=
  match mode with
  | .be => [(x >>> 16) &&& 65535, x &&& 65535]
  | .le => [x &&& 65535, (x >>> 16) &&& 65535]

/-- Grouping loop of `convert16` on an 8-bit buffer: consumes two bytes per
iteration.  The caller pads the list to an even length first, so the
one-element leftover case is unreachable there and maps to the empty list. -/
def pack16 (mode : Mode) : List Nat → List Nat
  | a :: b :: rest =>
    (match mode with
     | .be => (a <<< 8) ||| b
     | .le => a ||| (b <<< 8)) :: pack16 mode rest
  | _ => []

/-- Grouping loop of `convert32` on an 8-bit buffer: consumes four bytes per
iteration.  The caller pads the list to a multiple of four first, so the
leftover cases are unreachable there and map to the empty list. -/
def pack32 (mode : Mode) : List Nat → List Nat
  | a :: b :: c :: d :: rest =>
    (match mode with
     | .be => ((a <<< 24) ||| (b <<< 16)) ||| (c <<< 8) ||| d
     | .le => ((a ||| (b <<< 8)) ||| (c <<< 16)) ||| (d <<< 24)) :: pack32 mode rest
  | _ => []

/-- Method `convert8`: 32- and 16-bit buffers are decomposed into bytes and the
cursors reset; an 8-bit buffer returns early with no change at all; any other
width fails the conversion `assert`. -/
def data_buffer.convert8 (b : data_buffer) (mode : Mode) : Except BufErr data_buffer :=
  if b.width = 32 then
    let new_buf := b.buf.flatMap (u8ofu32 mode)
    .ok { width := 8, buf := new_buf, wr_idx := new_buf.length, rd_idx := 0 }
  else if b.width = 16 then
    let new_buf := b.buf.flatMap (u8ofu16 mode)
    .ok { width := 8, buf := new_buf, wr_idx := new_buf.length, rd_idx := 0 }
  else if b.width = 8 then
    .ok b
  else
    .error .badWidth

/-- Method `convert16`: a 32-bit buffer is split into halves; a 16-bit buffer
returns early unchanged; an 8-bit buffer is zero-padded to an even length and
grouped in pairs; any other width fails the conversion `assert`. -/
def data_buffer.convert16 (b : data_buffer) (mode : Mode) : Except BufErr data_buffer :=
  if b.width = 32 then
    let new_buf := b.buf.flatMap (u16ofu32 mode)
    .ok { width := 16, buf := new_buf, wr_idx := new_buf.length, rd_idx := 0 }
  else if b.width = 16 then
    .ok b
  else if b.width = 8 then
    let padded := b.buf ++ List.replicate (b.buf.length &&& 1) 0
    let new_buf := pack16 mode padded
    .ok { width := 16, buf := new_buf, wr_idx := new_buf.length, rd_idx := 0 }
  else
    .error .badWidth

/-- Method `convert32`: a 32-bit buffer returns early unchanged; a 16-bit
buffer fails the TODO `assert` (unsupported conversion); an 8-bit buffer is
zero-padded to a multiple of four bytes and grouped in fours; any other width
fails the conversion `assert`. -/
def data_buffer.convert32 (b : data_buffer) (mode : Mode) : Except BufErr data_buffer :=
  if b.width = 32 then
    .ok b
  else if b.width = 16 then
    .error .unsupportedConversion
  else if b.width = 8 then
    let padded := b.buf ++ List.replicate ((4 - (b.buf.length &&& 3)) &&& 3) 0
    let new_buf := pack32 mode padded
    .ok { width := 32, buf := new_buf, wr_idx := new_buf.length, rd_idx := 0 }
  else
    .error .badWidth

/-- Method `convert`: dispatch on the target width; any width other than
8, 16 or 32 fails the bad-width `assert`. -/
def data_buffer.convert (b : data_buffer) (width : Nat) (mode : Mode) :
    Except BufErr data_buffer :=
  if width = 8 then b.convert8 mode
  else if width = 16 then b.convert16 mode
  else if width = 32 then b.convert32 mode
  else .error .badWidth

/-- Method `endian_swap`: byte-reverses every element in place; an 8-bit
buffer returns early unchanged; any other width fails the swap `assert`.
Cursors are never touched. -/
def data_buffer.endian_swap (b : data_buffer) : Except BufErr data_buffer :=
  if b.width = 32 then
    .ok { b with buf := b.buf.map util.swap32 }
  else if b.width = 16 then
    .ok { b with buf := b.buf.map util.swap16 }
  else if b.width = 8 then
    .ok b
  else
    .error .badWidth

/-- Method `md5`: hashes the byte rendering of a copy converted to 8-bit
width.  MD5 itself is a fixed pure function of that byte string, so the digest
is modelled by its input byte list.  The method never assigns to the receiver
(and `copy` builds a fresh element list, so converting the copy cannot alias
the original), hence the post state is the receiver itself. -/
def data_buffer.md5 (b : data_buffer) (mode : Mode) :
    Except BufErr (List Nat × data_buffer) :=
  match b.copy.convert8 mode with
  | .ok x => .ok (x.buf, b)
  | .error e => .error e

/-- Masked-range invariant of the data model: every element fits the current
width. -/
def data_buffer.wellformed (b : data_buffer) : Prop :=
  ∀ x ∈ b.buf, x < 2 ^ b.width

/-- Buffer states reachable through the public mutators named by the
invariant claim: construction, `write`, `convert`, `endian_swap` and `copy`
(fallible operations contribute only their success states). -/
inductive reachable : data_buffer → Prop
  | init (width : Nat) (data : List Nat) : reachable (data_buffer.init width data)
  | write (b : data_buffer) (val : Nat) (b' : data_buffer) :
      reachable b → b.write val = .ok b' → reachable b'
  | convert (b : data_buffer) (width : Nat) (mode : Mode) (b' : data_buffer) :
      reachable b → b.convert width mode = .ok b' → reachable b'
  | endian_swap (b : data_buffer) (b' : data_buffer) :
      reachable b → b.endian_swap = .ok b' → reachable b'
  | copy (b : data_buffer) : reachable b → reachable b.copy

/-- Bitwise-and with 255 is reduction modulo 256. -/
theorem and255 (x : Nat) : x &&& 255 = x % 256 :=
  Nat.and_pow_two_sub_one_eq_mod x 8

/-- Bitwise-and with 65535 is reduction modulo 65536. -/
theorem and65535 (x : Nat) : x &&& 65535 = x % 65536 :=
  Nat.and_pow_two_sub_one_eq_mod x 16

/-- Bitwise-and with 1 is reduction modulo 2. -/
theorem and1 (x : Nat) : x &&& 1 = x % 2 :=
  Nat.and_pow_two_sub_one_eq_mod x 1

/-- Bitwise-and with 3 is reduction modulo 4. -/
theorem and3 (x : Nat) : x &&& 3 = x % 4 :=
  Nat.and_pow_two_sub_one_eq_mod x 2

/-- Right shift by 8 is division by 256. -/
theorem shr8 (x : Nat) : x >>> 8 = x / 256 := Nat.shiftRight_eq_div_pow x 8

/-- Right shift by 16 is division by 65536. -/
theorem shr16 (x : Nat) : x >>> 16 = x / 65536 := Nat.shiftRight_eq_div_pow x 16

/-- Right shift by 24 is division by 16777216. -/
theorem shr24 (x : Nat) : x >>> 24 = x / 16777216 := Nat.shiftRight_eq_div_pow x 24

/-- Left shift by 8 is multiplication by 256. -/
theorem shl8 (x : Nat) : x <<< 8 = x * 256 := Nat.shiftLeft_eq x 8

/-- Left shift by 16 is multiplication by 65536. -/
theorem shl16 (x : Nat) : x <<< 16 = x * 65536 := Nat.shiftLeft_eq x 16

/-- Left shift by 24 is multiplication by 16777216. -/
theorem shl24 (x : Nat) : x <<< 24 = x * 16777216 := Nat.shiftLeft_eq x 24

/-- A shifted value or-ed with a value below the shift width is their sum:
the occupied bit ranges are disjoint. -/
theorem lor_shiftLeft_eq_add (n : Nat) :
    ∀ a b : Nat, b < 2 ^ n → (a <<< n) ||| b = a * 2 ^ n + b := by
  induction n with
  | zero =>
    intro a b hb
    have hb0 : b = 0 := by omega
    subst hb0
    simp [Nat.shiftLeft_eq]
  | succ n ih =>
    intro a b hb
    have hdecomp : b = Nat.bit (decide (b % 2 = 1)) (b / 2) := by
      rw [Nat.bit_val]
      rcases Nat.mod_two_eq_zero_or_one b with h | h <;> simp [h] <;> omega
    have h2a : a <<< (n + 1) = Nat.bit false (a <<< n) := by
      rw [Nat.bit_val]
      simp [Nat.shiftLeft_eq, Nat.pow_succ]
      ring
    rw [h2a, hdecomp, Nat.lor_bit]
    have ihb : (a <<< n) ||| (b / 2) = a * 2 ^ n + b / 2 := ih a (b / 2) (by omega)
    rw [Nat.bit_val, ihb]
    rcases Nat.mod_two_eq_zero_or_one b with h | h <;> simp [h] <;> ring_nf

/-- Or of values with disjoint bit ranges is addition: a multiple of `2 ^ n`
or-ed with a value below `2 ^ n`. -/
theorem lor_eq_add (n a b : Nat) (ha : a % 2 ^ n = 0) (hb : b < 2 ^ n) :
    a ||| b = a + b := by
  have h1 : (a / 2 ^ n) <<< n = a := by
    rw [Nat.shiftLeft_eq]
    exact Nat.div_mul_cancel (Nat.dvd_of_mod_eq_zero ha)
  calc a ||| b = ((a / 2 ^ n) <<< n) ||| b := by rw [h1]
    _ = (a / 2 ^ n) * 2 ^ n + b := lor_shiftLeft_eq_add n _ b hb
    _ = a + b := by rw [← Nat.shiftLeft_eq, h1]

/-- Masking to a width is reduction modulo `2 ^ width`. -/
theorem util.mask_val_eq (val width : Nat) : util.mask_val val width = val % 2 ^ width := by
  unfold util.mask_val util.mask
  exact Nat.and_pow_two_sub_one_eq_mod val width

/-- Dispatch equation: target width 8 selects `convert8`. -/
theorem data_buffer.convert_to8 (b : data_buffer) (mode : Mode) :
    b.convert 8 mode = b.convert8 mode := rfl

/-- Dispatch equation: target width 16 selects `convert16`. -/
theorem data_buffer.convert_to16 (b : data_buffer) (mode : Mode) :
    b.convert 16 mode = b.convert16 mode := rfl

/-- Dispatch equation: target width 32 selects `convert32`. -/
theorem data_buffer.convert_to32 (b : data_buffer) (mode : Mode) :
    b.convert 32 mode = b.convert32 mode := rfl

/-- Branch equation of `convert8` on a 32-bit buffer. -/
theorem data_buffer.convert8_at32 (b : data_buffer) (mode : Mode) (hb : b.width = 32) :
    b.convert8 mode =
      .ok { width := 8, buf := b.buf.flatMap (u8ofu32 mode), wr_idx := (b.buf.flatMap (u8ofu32 mode)).length, rd_idx := 0 } := by
  simp [data_buffer.convert8, hb]

/-- Branch equation of `convert8` on a 16-bit buffer. -/
theorem data_buffer.convert8_at16 (b : data_buffer) (mode : Mode) (hb : b.width = 16) :
    b.convert8 mode =
      .ok { width := 8, buf := b.buf.flatMap (u8ofu16 mode), wr_idx := (b.buf.flatMap (u8ofu16 mode)).length, rd_idx := 0 } := by
  simp [data_buffer.convert8, hb]

/-- Branch equation of `convert8` on an 8-bit buffer: early return, no change. -/
theorem data_buffer.convert8_at8 (b : data_buffer) (mode : Mode) (hb : b.width = 8) :
    b.convert8 mode = .ok b := by
  simp [data_buffer.convert8, hb]

/-- Branch equation of `convert16` on a 32-bit buffer. -/
theorem data_buffer.convert16_at32 (b : data_buffer) (mode : Mode) (hb : b.width = 32) :
    b.convert16 mode =
      .ok { width := 16, buf := b.buf.flatMap (u16ofu32 mode), wr_idx := (b.buf.flatMap (u16ofu32 mode)).length, rd_idx := 0 } := by
  simp [data_buffer.convert16, hb]

/-- Branch equation of `convert16` on a 16-bit buffer: early return, no change. -/
theorem data_buffer.convert16_at16 (b : data_buffer) (mode : Mode) (hb : b.width = 16) :
    b.convert16 mode = .ok b := by
  simp [data_buffer.convert16, hb]

/-- Branch equation of `convert16` on an 8-bit buffer: pad to even, pack pairs. -/
theorem data_buffer.convert16_at8 (b : data_buffer) (mode : Mode) (hb : b.width = 8) :
    b.convert16 mode =
      .ok { width := 16, buf := pack16 mode (b.buf ++ List.replicate (b.buf.length &&& 1) 0), wr_idx := (pack16 mode (b.buf ++ List.replicate (b.buf.length &&& 1) 0)).length, rd_idx := 0 } := by
  simp [data_buffer.convert16, hb]

/-- Branch equation of `convert32` on a 32-bit buffer: early return, no change. -/
theorem data_buffer.convert32_at32 (b : data_buffer) (mode : Mode) (hb : b.width = 32) :
    b.convert32 mode = .ok b := by
  simp [data_buffer.convert32, hb]

/-- Branch equation of `convert32` on a 16-bit buffer: the unsupported case. -/
theorem data_buffer.convert32_at16 (b : data_buffer) (mode : Mode) (hb : b.width = 16) :
    b.convert32 mode = .error .unsupportedConversion := by
  simp [data_buffer.convert32, hb]

/-- Branch equation of `convert32` on an 8-bit buffer: pad to a multiple of
four, pack quadruples. -/
theorem data_buffer.convert32_at8 (b : data_buffer) (mode : Mode) (hb : b.width = 8) :
    b.convert32 mode =
      .ok { width := 32, buf := pack32 mode (b.buf ++ List.replicate ((4 - (b.buf.length &&& 3)) &&& 3) 0), wr_idx := (pack32 mode (b.buf ++ List.replicate ((4 - (b.buf.length &&& 3)) &&& 3) 0)).length, rd_idx := 0 } := by
  simp [data_buffer.convert32, hb]

/-- C2: an 8-bit buffer `[1, 2, 3, 4]` converts to 16-bit as `[0x0201, 0x0403]`
in little order and `[0x0102, 0x0304]` in big order, and the odd-length 8-bit
buffer `[1, 2, 3]` converts to 16-bit little as `[0x0201, 0x0003]`, the byte
sequence being zero-padded before grouping. -/
theorem convert16_scenarios :
    (data_buffer.init 8 [0x01, 0x02, 0x03, 0x04]).convert 16 .le =
      .ok { width := 16, buf := [0x0201, 0x0403], wr_idx := 2, rd_idx := 0 } ∧
    (data_buffer.init 8 [0x01, 0x02, 0x03, 0x04]).convert 16 .be =
      .ok { width := 16, buf := [0x0102, 0x0304], wr_idx := 2, rd_idx := 0 } ∧
    (data_buffer.init 8 [0x01, 0x02, 0x03]).convert 16 .le =
      .ok { width := 16, buf := [0x0201, 0x0003], wr_idx := 2, rd_idx := 0 } :=
  ⟨rfl, rfl, rfl⟩

/-- C4: converting any 16-bit buffer to 32-bit width fails with the
unsupported-conversion error, through the dispatcher and through `convert32`
directly; no converted buffer is produced. -/
theorem convert_16_to_32_unsupported (b : data_buffer) (mode : Mode) (h : b.width = 16) :
    b.convert 32 mode = .error .unsupportedConversion ∧
    b.convert32 mode = .error .unsupportedConversion := by
  rw [data_buffer.convert_to32]
  exact ⟨data_buffer.convert32_at16 b mode h, data_buffer.convert32_at16 b mode h⟩

/-- C4 witness: a concrete 16-bit buffer is rejected. -/
theorem convert_16_to_32_unsupported_witness :
    (data_buffer.init 16 [0x1234]).convert 32 .le = .error .unsupportedConversion ∧
    (data_buffer.init 16 [0x1234]).convert32 .le = .error .unsupportedConversion :=
  convert_16_to_32_unsupported (data_buffer.init 16 [0x1234]) .le rfl

/-- C5: `write` masks the value to the width; at the append boundary it
appends and advances the cursor, strictly inside it overwrites in place
keeping cursor and length, and past the boundary it fails with the overrun
error. -/
theorem write_semantics (b : data_buffer) (val : Nat) :
    (b.wr_idx = b.buf.length →
      b.write val = .ok { b with buf := b.buf ++ [val % 2 ^ b.width], wr_idx := b.wr_idx + 1 }) ∧
    (b.wr_idx < b.buf.length →
      b.write val = .ok { b with buf := b.buf.set b.wr_idx (val % 2 ^ b.width) } ∧
      (b.buf.set b.wr_idx (val % 2 ^ b.width)).length = b.buf.length) ∧
    (b.buf.length < b.wr_idx → b.write val = .error .bufferOverrun) := by
  refine ⟨?_, ?_, ?_⟩
  · intro h
    simp [data_buffer.write, util.mask_val_eq, h]
  · intro h
    have hne : ¬ b.wr_idx = b.buf.length := by omega
    exact ⟨by simp [data_buffer.write, util.mask_val_eq, hne, h], by simp⟩
  · intro h
    have hne : ¬ b.wr_idx = b.buf.length := by omega
    have hnlt : ¬ b.wr_idx < b.buf.length := by omega
    simp [data_buffer.write, hne, hnlt]

/-- C5 witness: a masked append at the boundary, an in-place overwrite below
it, and an overrun failure past it, each at a concrete input. -/
theorem write_semantics_witness :
    (data_buffer.init 8 [1, 2]).write 511 =
      .ok { width := 8, buf := [1, 2, 255], wr_idx := 3, rd_idx := 0 } ∧
    (data_buffer.write { width := 8, buf := [1, 2], wr_idx := 0, rd_idx := 0 } 300 =
      .ok { width := 8, buf := [44, 2], wr_idx := 0, rd_idx := 0 }) ∧
    (data_buffer.write { width := 8, buf := [], wr_idx := 5, rd_idx := 0 } 1 =
      .error .bufferOverrun) :=
  ⟨(write_semantics (data_buffer.init 8 [1, 2]) 511).1 rfl,
   ((write_semantics { width := 8, buf := [1, 2], wr_idx := 0, rd_idx := 0 } 300).2.1
      (by decide)).1,
   (write_semantics { width := 8, buf := [], wr_idx := 5, rd_idx := 0 } 1).2.2 (by decide)⟩

/-- C7: with the read cursor inside the element list, `read` returns the
element at the cursor and advances the cursor by one; at or past the end it
fails with the underflow error and leaves the state unchanged. -/
theorem read_semantics (b : data_buffer) :
    (b.rd_idx < b.buf.length →
      b.read = (.ok (b.buf.getD b.rd_idx 0), { b with rd_idx := b.rd_idx + 1 })) ∧
    (b.buf.length ≤ b.rd_idx → b.read = (.error .bufferUnderflow, b)) := by
  constructor
  · intro h
    simp [data_buffer.read, h, List.getD_eq_getElem, List.get_eq_getElem]
  · intro h
    have hn : ¬ b.rd_idx < b.buf.length := by omega
    simp [data_buffer.read, hn]

/-- C7 witness: a successful read from a two-element buffer and an underflow
on the empty buffer. -/
theorem read_semantics_witness :
    (data_buffer.init 8 [5, 6]).read =
      (.ok 5, { width := 8, buf := [5, 6], wr_idx := 2, rd_idx := 1 }) ∧
    (data_buffer.init 8 []).read = (.error .bufferUnderflow, data_buffer.init 8 []) :=
  ⟨(read_semantics (data_buffer.init 8 [5, 6])).1 (by decide),
   (read_semantics (data_buffer.init 8 [])).2 (by decide)⟩

/-- C10: `endian_swap` succeeds on the three valid widths and returns a state
whose read and write cursors are exactly those of the receiver. -/
theorem endian_swap_preserves_cursors (b : data_buffer)
    (h : b.width = 8 ∨ b.width = 16 ∨ b.width = 32) :
    ∃ b', b.endian_swap = .ok b' ∧ b'.rd_idx = b.rd_idx ∧ b'.wr_idx = b.wr_idx := by
  rcases h with h | h | h
  · exact ⟨b, by simp [data_buffer.endian_swap, h], rfl, rfl⟩
  · exact ⟨{ b with buf := b.buf.map util.swap16 },
      by simp [data_buffer.endian_swap, h], rfl, rfl⟩
  · exact ⟨{ b with buf := b.buf.map util.swap32 },
      by simp [data_buffer.endian_swap, h], rfl, rfl⟩

/-- C10 witness: cursor preservation at a concrete 16-bit buffer. -/
theorem endian_swap_preserves_cursors_witness :
    ∃ b', (data_buffer.init 16 [0x1234]).endian_swap = .ok b' ∧
      b'.rd_idx = (data_buffer.init 16 [0x1234]).rd_idx ∧
      b'.wr_idx = (data_buffer.init 16 [0x1234]).wr_idx :=
  endian_swap_preserves_cursors (data_buffer.init 16 [0x1234]) (Or.inr (Or.inl rfl))

/-- C1 counterexample: the claim includes the identity transition, but the
identity branches of the conversion methods return early without resetting the
cursors.  Concretely, constructing an 8-bit buffer from `[1, 2]` and reading
once leaves the read cursor at 1; the identity conversion to width 8 then
succeeds and returns the very same state, whose read cursor is still 1, not 0
as the claim demands. -/
theorem convert_identity_keeps_cursor :
    ((data_buffer.init 8 [1, 2]).read).2.convert 8 .le =
      .ok ((data_buffer.init 8 [1, 2]).read).2 ∧
    (((data_buffer.init 8 [1, 2]).read).2).rd_idx = 1 := ⟨rfl, rfl⟩

/-- C1 amended: for every supported transition the conversion succeeds and the
result has the target width; for a proper (non-identity) transition the read
cursor is reset to 0 and the write cursor to the new element count, while the
identity transition returns the buffer entirely unchanged, cursors included. -/
theorem convert_resets_state (b : data_buffer) (w : Nat) (mode : Mode)
    (hw : w = 8 ∨ w = 16 ∨ w = 32)
    (hb : b.width = 8 ∨ b.width = 16 ∨ b.width = 32)
    (hs : ¬(b.width = 16 ∧ w = 32)) :
    ∃ b', b.convert w mode = .ok b' ∧ b'.width = w ∧
      (b.width = w → b' = b) ∧
      (b.width ≠ w → b'.rd_idx = 0 ∧ b'.wr_idx = b'.buf.length) := by
  rcases hw with hw | hw | hw <;> subst hw <;> rcases hb with hb | hb | hb
  · exact ⟨b, by rw [data_buffer.convert_to8]; exact b.convert8_at8 mode hb, hb,
      fun _ => rfl, fun h => absurd hb h⟩
  · refine ⟨_, by rw [data_buffer.convert_to8]; exact b.convert8_at16 mode hb, rfl, ?_, ?_⟩
    · intro h
      rw [hb] at h
      exact absurd h (by decide)
    · intro _
      exact ⟨rfl, rfl⟩
  · refine ⟨_, by rw [data_buffer.convert_to8]; exact b.convert8_at32 mode hb, rfl, ?_, ?_⟩
    · intro h
      rw [hb] at h
      exact absurd h (by decide)
    · intro _
      exact ⟨rfl, rfl⟩
  · refine ⟨_, by rw [data_buffer.convert_to16]; exact b.convert16_at8 mode hb, rfl, ?_, ?_⟩
    · intro h
      rw [hb] at h
      exact absurd h (by decide)
    · intro _
      exact ⟨rfl, rfl⟩
  · exact ⟨b, by rw [data_buffer.convert_to16]; exact b.convert16_at16 mode hb, hb,
      fun _ => rfl, fun h => absurd hb h⟩
  · refine ⟨_, by rw [data_buffer.convert_to16]; exact b.convert16_at32 mode hb, rfl, ?_, ?_⟩
    · intro h
      rw [hb] at h
      exact absurd h (by decide)
    · intro _
      exact ⟨rfl, rfl⟩
  · refine ⟨_, by rw [data_buffer.convert_to32]; exact b.convert32_at8 mode hb, rfl, ?_, ?_⟩
    · intro h
      rw [hb] at h
      exact absurd h (by decide)
    · intro _
      exact ⟨rfl, rfl⟩
  · exact absurd ⟨hb, rfl⟩ hs
  · exact ⟨b, by rw [data_buffer.convert_to32]; exact b.convert32_at32 mode hb, hb,
      fun _ => rfl, fun h => absurd hb h⟩

/-- C1 witness: the amended statement applied to a concrete widening of an
8-bit buffer to 16 bits. -/
theorem convert_resets_state_witness :
    ∃ b', (data_buffer.init 8 [1, 2, 3]).convert 16 .le = .ok b' ∧ b'.width = 16 ∧
      ((data_buffer.init 8 [1, 2, 3]).width = 16 → b' = data_buffer.init 8 [1, 2, 3]) ∧
      ((data_buffer.init 8 [1, 2, 3]).width ≠ 16 →
        b'.rd_idx = 0 ∧ b'.wr_idx = b'.buf.length) :=
  convert_resets_state (data_buffer.init 8 [1, 2, 3]) 16 .le (by decide) (by decide)
    (by decide)

/-- Arithmetic form of the 16-bit byte swap. -/
theorem util.swap16_eq (x : Nat) :
    util.swap16 x = (x % 256) * 256 + x / 256 % 256 := by
  unfold util.swap16
  simp only [and255, shr8, shl8]
  exact lor_eq_add 8 ((x % 256) * 256) (x / 256 % 256) (by omega) (by omega)

/-- Arithmetic form of the 32-bit byte swap. -/
theorem util.swap32_eq (x : Nat) :
    util.swap32 x = (x % 256) * 16777216 + (x / 256 % 256) * 65536 +
      (x / 65536 % 256) * 256 + x / 16777216 % 256 := by
  unfold util.swap32
  simp only [and255, shr8, shr16, shr24, shl8, shl16, shl24]
  rw [lor_eq_add 24 ((x % 256) * 16777216) ((x / 256 % 256) * 65536) (by omega) (by omega)]
  rw [lor_eq_add 16 ((x % 256) * 16777216 + (x / 256 % 256) * 65536)
    ((x / 65536 % 256) * 256) (by omega) (by omega)]
  rw [lor_eq_add 8
    ((x % 256) * 16777216 + (x / 256 % 256) * 65536 + (x / 65536 % 256) * 256)
    (x / 16777216 % 256) (by omega) (by omega)]

/-- Swapping a 16-bit value twice restores it. -/
theorem util.swap16_invol (x : Nat) (h : x < 65536) :
    util.swap16 (util.swap16 x) = x := by
  rw [util.swap16_eq, util.swap16_eq]
  have h1 : (x % 256 * 256 + x / 256 % 256) % 256 = x / 256 % 256 := by omega
  have h2 : (x % 256 * 256 + x / 256 % 256) / 256 = x % 256 := by omega
  rw [h1, h2]
  omega

/-- Swapping a 32-bit value twice restores it. -/
theorem util.swap32_invol (x : Nat) (h : x < 4294967296) :
    util.swap32 (util.swap32 x) = x := by
  rw [util.swap32_eq, util.swap32_eq]
  have hp : x % 256 < 256 := by omega
  have hq : x / 256 % 256 < 256 := by omega
  have hr : x / 65536 % 256 < 256 := by omega
  have hs : x / 16777216 % 256 < 256 := by omega
  have hx : x = x % 256 + 256 * (x / 256 % 256) + 65536 * (x / 65536 % 256) +
      16777216 * (x / 16777216 % 256) := by omega
  generalize x % 256 = p at hp hx ⊢
  generalize x / 256 % 256 = q at hq hx ⊢
  generalize x / 65536 % 256 = r at hr hx ⊢
  generalize x / 16777216 % 256 = s at hs hx ⊢
  have e1 : (p * 16777216 + q * 65536 + r * 256 + s) % 256 = s := by omega
  have e2 : (p * 16777216 + q * 65536 + r * 256 + s) / 256 % 256 = r := by omega
  have e3 : (p * 16777216 + q * 65536 + r * 256 + s) / 65536 = p * 256 + q := by omega
  have e4 : (p * 16777216 + q * 65536 + r * 256 + s) / 16777216 = p := by omega
  rw [e1, e2, e3, e4, hx]
  have f1 : (p * 256 + q) % 256 = q := by omega
  rw [f1, Nat.mod_eq_of_lt hp]
  ring

/-- The 16-bit byte swap stays below `2 ^ 16`. -/
theorem util.swap16_lt (x : Nat) : util.swap16 x < 65536 := by
  rw [util.swap16_eq]
  omega

/-- The 32-bit byte swap stays below `2 ^ 32`. -/
theorem util.swap32_lt (x : Nat) : util.swap32 x < 4294967296 := by
  rw [util.swap32_eq]
  omega

/-- Mapping the 16-bit swap twice over a list of 16-bit values restores it. -/
theorem map_swap16_invol (l : List Nat) (h : ∀ x ∈ l, x < 65536) :
    (l.map util.swap16).map util.swap16 = l := by
  induction l with
  | nil => simp
  | cons a t ih =>
    simp only [List.map_cons, List.cons.injEq]
    exact ⟨util.swap16_invol a (h a (by simp)),
      ih (fun x hx => h x (by simp [hx]))⟩

/-- Mapping the 32-bit swap twice over a list of 32-bit values restores it. -/
theorem map_swap32_invol (l : List Nat) (h : ∀ x ∈ l, x < 4294967296) :
    (l.map util.swap32).map util.swap32 = l := by
  induction l with
  | nil => simp
  | cons a t ih =>
    simp only [List.map_cons, List.cons.injEq]
    exact ⟨util.swap32_invol a (h a (by simp)),
      ih (fun x hx => h x (by simp [hx]))⟩

/-- C8: on a well-formed buffer of width 8, 16 or 32, `endian_swap` applied
twice restores every element; for width 8 a single swap is already the
identity; and one swap never changes the element count or the width. -/
theorem endian_swap_involutive (b : data_buffer)
    (hw : b.width = 8 ∨ b.width = 16 ∨ b.width = 32) (hwf : b.wellformed) :
    ∃ b1 b2, b.endian_swap = .ok b1 ∧ b1.endian_swap = .ok b2 ∧ b2 = b ∧
      (b.width = 8 → b1 = b) ∧ b1.buf.length = b.buf.length ∧ b1.width = b.width := by
  rcases hw with h | h | h
  · exact ⟨b, b, by simp [data_buffer.endian_swap, h],
      by simp [data_buffer.endian_swap, h], rfl, fun _ => rfl, rfl, rfl⟩
  · have hmap : (b.buf.map util.swap16).map util.swap16 = b.buf :=
      map_swap16_invol b.buf (fun x hx => by have := hwf x hx; rw [h] at this; omega)
    refine ⟨{ b with buf := b.buf.map util.swap16 },
      { b with buf := (b.buf.map util.swap16).map util.swap16 },
      by simp [data_buffer.endian_swap, h], by simp [data_buffer.endian_swap, h],
      ?_, ?_, by simp, rfl⟩
    · rw [hmap]
    · intro h8
      rw [h] at h8
      exact absurd h8 (by decide)
  · have hmap : (b.buf.map util.swap32).map util.swap32 = b.buf :=
      map_swap32_invol b.buf (fun x hx => by have := hwf x hx; rw [h] at this; omega)
    refine ⟨{ b with buf := b.buf.map util.swap32 },
      { b with buf := (b.buf.map util.swap32).map util.swap32 },
      by simp [data_buffer.endian_swap, h], by simp [data_buffer.endian_swap, h],
      ?_, ?_, by simp, rfl⟩
    · rw [hmap]
    · intro h8
      rw [h] at h8
      exact absurd h8 (by decide)

/-- C8 witness: the double swap restores a concrete 16-bit buffer. -/
theorem endian_swap_involutive_witness :
    ∃ b1 b2, (data_buffer.init 16 [0x1234, 0xbeef]).endian_swap = .ok b1 ∧
      b1.endian_swap = .ok b2 ∧ b2 = data_buffer.init 16 [0x1234, 0xbeef] ∧
      ((data_buffer.init 16 [0x1234, 0xbeef]).width = 8 →
        b1 = data_buffer.init 16 [0x1234, 0xbeef]) ∧
      b1.buf.length = (data_buffer.init 16 [0x1234, 0xbeef]).buf.length ∧
      b1.width = (data_buffer.init 16 [0x1234, 0xbeef]).width :=
  endian_swap_involutive (data_buffer.init 16 [0x1234, 0xbeef])
    (Or.inr (Or.inl rfl)) (by unfold data_buffer.wellformed; decide)

/-- Field equation of the constructor. -/
theorem data_buffer.init_width (w : Nat) (data : List Nat) :
    (data_buffer.init w data).width = w := rfl

/-- Field equation of the constructor. -/
theorem data_buffer.init_buf (w : Nat) (data : List Nat) :
    (data_buffer.init w data).buf = data.map (fun x => x &&& util.mask w) := rfl

/-- Branch equation of `write` at the append boundary. -/
theorem data_buffer.write_append (b : data_buffer) (val : Nat)
    (h : b.wr_idx = b.buf.length) :
    b.write val = .ok { b with buf := b.buf ++ [util.mask_val val b.width], wr_idx := b.wr_idx + 1 } := by
  simp [data_buffer.write, h]

/-- Branch equation of `write` strictly inside the element list. -/
theorem data_buffer.write_set (b : data_buffer) (val : Nat)
    (h : b.wr_idx < b.buf.length) :
    b.write val = .ok { b with buf := b.buf.set b.wr_idx (util.mask_val val b.width) } := by
  have hne : ¬ b.wr_idx = b.buf.length := by omega
  simp [data_buffer.write, hne, h]

/-- Branch equation of `write` past the append boundary. -/
theorem data_buffer.write_overrun (b : data_buffer) (val : Nat)
    (h : b.buf.length < b.wr_idx) :
    b.write val = .error .bufferOverrun := by
  have hne : ¬ b.wr_idx = b.buf.length := by omega
  have hnlt : ¬ b.wr_idx < b.buf.length := by omega
  simp [data_buffer.write, hne, hnlt]

/-- Masking with a width mask lands inside the width range. -/
theorem and_mask_lt (x w : Nat) : x &&& util.mask w < 2 ^ w := by
  unfold util.mask
  rw [Nat.and_pow_two_sub_one_eq_mod]
  exact Nat.mod_lt x (Nat.two_pow_pos w)

/-- Every byte produced from a 32-bit element is below 256. -/
theorem u8ofu32_lt (mode : Mode) (y : Nat) : ∀ x ∈ u8ofu32 mode y, x < 256 := by
  intro x hx
  cases mode <;> simp [u8ofu32] at hx <;>
    rcases hx with h | h | h | h <;> subst h <;> rw [and255] <;> omega

/-- Every byte produced from a 16-bit element is below 256. -/
theorem u8ofu16_lt (mode : Mode) (y : Nat) : ∀ x ∈ u8ofu16 mode y, x < 256 := by
  intro x hx
  cases mode <;> simp [u8ofu16] at hx <;>
    rcases hx with h | h <;> subst h <;> rw [and255] <;> omega

/-- Every half produced from a 32-bit element is below 65536. -/
theorem u16ofu32_lt (mode : Mode) (y : Nat) : ∀ x ∈ u16ofu32 mode y, x < 65536 := by
  intro x hx
  cases mode <;> simp [u16ofu32] at hx <;>
    rcases hx with h | h <;> subst h <;> rw [and65535] <;> omega

/-- Packing bytes in pairs stays below 65536. -/
theorem pack16_lt (mode : Mode) :
    ∀ l, (∀ x ∈ l, x < 256) → ∀ y ∈ pack16 mode l, y < 65536
  | [] => by
    intro _ y hy
    simp [pack16] at hy
  | [a] => by
    intro _ y hy
    simp [pack16] at hy
  | a :: b :: rest => by
    intro h y hy
    have ha := h a (by simp)
    have hb := h b (by simp)
    cases mode
    · simp only [pack16] at hy
      rcases List.mem_cons.1 hy with hy | hy
      · subst hy
        rw [shl8, lor_eq_add 8 (a * 256) b (by omega) hb]
        omega
      · exact pack16_lt .be rest (fun x hx => h x (by simp [hx])) y hy
    · simp only [pack16] at hy
      rcases List.mem_cons.1 hy with hy | hy
      · subst hy
        rw [shl8, Nat.lor_comm, lor_eq_add 8 (b * 256) a (by omega) ha]
        omega
      · exact pack16_lt .le rest (fun x hx => h x (by simp [hx])) y hy

/-- Packing bytes in quadruples stays below 4294967296. -/
theorem pack32_lt (mode : Mode) :
    ∀ l, (∀ x ∈ l, x < 256) → ∀ y ∈ pack32 mode l, y < 4294967296
  | [] => by
    intro _ y hy
    simp [pack32] at hy
  | [a] => by
    intro _ y hy
    simp [pack32] at hy
  | [a, b] => by
    intro _ y hy
    simp [pack32] at hy
  | [a, b, c] => by
    intro _ y hy
    simp [pack32] at hy
  | a :: b :: c :: d :: rest => by
    intro h y hy
    have ha := h a (by simp)
    have hb := h b (by simp)
    have hc := h c (by simp)
    have hd := h d (by simp)
    cases mode
    · simp only [pack32] at hy
      rcases List.mem_cons.1 hy with hy | hy
      · subst hy
        rw [shl8, shl16, shl24]
        rw [lor_eq_add 24 (a * 16777216) (b * 65536) (by omega) (by omega)]
        rw [lor_eq_add 16 (a * 16777216 + b * 65536) (c * 256) (by omega) (by omega)]
        rw [lor_eq_add 8 (a * 16777216 + b * 65536 + c * 256) d (by omega) hd]
        omega
      · exact pack32_lt .be rest (fun x hx => h x (by simp [hx])) y hy
    · simp only [pack32] at hy
      rcases List.mem_cons.1 hy with hy | hy
      · subst hy
        rw [shl8, shl16, shl24]
        rw [Nat.lor_comm a (b * 256), lor_eq_add 8 (b * 256) a (by omega) ha]
        rw [Nat.lor_comm (b * 256 + a) (c * 65536),
          lor_eq_add 16 (c * 65536) (b * 256 + a) (by omega) (by omega)]
        rw [Nat.lor_comm (c * 65536 + (b * 256 + a)) (d * 16777216),
          lor_eq_add 24 (d * 16777216) (c * 65536 + (b * 256 + a)) (by omega) (by omega)]
        omega
      · exact pack32_lt .le rest (fun x hx => h x (by simp [hx])) y hy

/-- A constructed buffer is well formed: each value is masked on entry. -/
theorem data_buffer.init_wellformed (w : Nat) (data : List Nat) :
    (data_buffer.init w data).wellformed := by
  intro x hx
  rw [data_buffer.init_buf] at hx
  rw [data_buffer.init_width]
  obtain ⟨y, _, rfl⟩ := List.mem_map.1 hx
  exact and_mask_lt y w

/-- A successful `write` preserves well-formedness. -/
theorem write_wellformed (b : data_buffer) (val : Nat) (b' : data_buffer)
    (hwf : b.wellformed) (h : b.write val = .ok b') : b'.wellformed := by
  by_cases h1 : b.wr_idx = b.buf.length
  · rw [data_buffer.write_append b val h1] at h
    injection h with h2
    subst h2
    intro x hx
    rcases List.mem_append.1 hx with hx | hx
    · exact hwf x hx
    · have hx2 : x = util.mask_val val b.width := by simpa using hx
      subst hx2
      exact and_mask_lt val b.width
  · by_cases h2 : b.wr_idx < b.buf.length
    · rw [data_buffer.write_set b val h2] at h
      injection h with h3
      subst h3
      intro x hx
      rcases List.mem_or_eq_of_mem_set hx with hx | hx
      · exact hwf x hx
      · subst hx
        exact and_mask_lt val b.width
    · rw [data_buffer.write_overrun b val (by omega)] at h
      simp at h

/-- A successful `convert8` preserves well-formedness. -/
theorem convert8_wellformed (b : data_buffer) (mode : Mode) (b' : data_buffer)
    (hwf : b.wellformed) (h : b.convert8 mode = .ok b') : b'.wellformed := by
  by_cases h32 : b.width = 32
  · rw [data_buffer.convert8_at32 b mode h32] at h
    injection h with h2
    subst h2
    intro x hx
    obtain ⟨y, _, hy⟩ := List.mem_flatMap.1 hx
    exact u8ofu32_lt mode y x hy
  · by_cases h16 : b.width = 16
    · rw [data_buffer.convert8_at16 b mode h16] at h
      injection h with h2
      subst h2
      intro x hx
      obtain ⟨y, _, hy⟩ := List.mem_flatMap.1 hx
      exact u8ofu16_lt mode y x hy
    · by_cases h8 : b.width = 8
      · rw [data_buffer.convert8_at8 b mode h8] at h
        injection h with h2
        subst h2
        exact hwf
      · have he : b.convert8 mode = .error .badWidth := by
          simp [data_buffer.convert8, h32, h16, h8]
        rw [he] at h
        simp at h

/-- A successful `convert16` preserves well-formedness. -/
theorem convert16_wellformed (b : data_buffer) (mode : Mode) (b' : data_buffer)
    (hwf : b.wellformed) (h : b.convert16 mode = .ok b') : b'.wellformed := by
  by_cases h32 : b.width = 32
  · rw [data_buffer.convert16_at32 b mode h32] at h
    injection h with h2
    subst h2
    intro x hx
    obtain ⟨y, _, hy⟩ := List.mem_flatMap.1 hx
    exact u16ofu32_lt mode y x hy
  · by_cases h16 : b.width = 16
    · rw [data_buffer.convert16_at16 b mode h16] at h
      injection h with h2
      subst h2
      exact hwf
    · by_cases h8 : b.width = 8
      · rw [data_buffer.convert16_at8 b mode h8] at h
        injection h with h2
        subst h2
        intro x hx
        refine pack16_lt mode (b.buf ++ List.replicate (b.buf.length &&& 1) 0) ?_ x hx
        intro z hz
        rcases List.mem_append.1 hz with hz | hz
        · have := hwf z hz
          rw [h8] at this
          omega
        · have := List.eq_of_mem_replicate hz
          omega
      · have he : b.convert16 mode = .error .badWidth := by
          simp [data_buffer.convert16, h32, h16, h8]
        rw [he] at h
        simp at h

/-- A successful `convert32` preserves well-formedness. -/
theorem convert32_wellformed (b : data_buffer) (mode : Mode) (b' : data_buffer)
    (hwf : b.wellformed) (h : b.convert32 mode = .ok b') : b'.wellformed := by
  by_cases h32 : b.width = 32
  · rw [data_buffer.convert32_at32 b mode h32] at h
    injection h with h2
    subst h2
    exact hwf
  · by_cases h16 : b.width = 16
    · rw [data_buffer.convert32_at16 b mode h16] at h
      simp at h
    · by_cases h8 : b.width = 8
      · rw [data_buffer.convert32_at8 b mode h8] at h
        injection h with h2
        subst h2
        intro x hx
        refine pack32_lt mode
          (b.buf ++ List.replicate ((4 - (b.buf.length &&& 3)) &&& 3) 0) ?_ x hx
        intro z hz
        rcases List.mem_append.1 hz with hz | hz
        · have := hwf z hz
          rw [h8] at this
          omega
        · have := List.eq_of_mem_replicate hz
          omega
      · have he : b.convert32 mode = .error .badWidth := by
          simp [data_buffer.convert32, h32, h16, h8]
        rw [he] at h
        simp at h

/-- A successful `convert` preserves well-formedness. -/
theorem convert_wellformed (b : data_buffer) (w : Nat) (mode : Mode) (b' : data_buffer)
    (hwf : b.wellformed) (h : b.convert w mode = .ok b') : b'.wellformed := by
  by_cases hw8 : w = 8
  · subst hw8
    rw [data_buffer.convert_to8] at h
    exact convert8_wellformed b mode b' hwf h
  · by_cases hw16 : w = 16
    · subst hw16
      rw [data_buffer.convert_to16] at h
      exact convert16_wellformed b mode b' hwf h
    · by_cases hw32 : w = 32
      · subst hw32
        rw [data_buffer.convert_to32] at h
        exact convert32_wellformed b mode b' hwf h
      · have he : b.convert w mode = .error .badWidth := by
          simp [data_buffer.convert, hw8, hw16, hw32]
        rw [he] at h
        simp at h

/-- A successful `endian_swap` preserves well-formedness. -/
theorem endian_swap_wellformed (b : data_buffer) (b' : data_buffer)
    (hwf : b.wellformed) (h : b.endian_swap = .ok b') : b'.wellformed := by
  by_cases h32 : b.width = 32
  · have he : b.endian_swap = .ok { b with buf := b.buf.map util.swap32 } := by
      simp [data_buffer.endian_swap, h32]
    rw [he] at h
    injection h with h2
    subst h2
    intro x hx
    obtain ⟨y, _, rfl⟩ := List.mem_map.1 hx
    have := util.swap32_lt y
    show util.swap32 y < 2 ^ b.width
    rw [h32]
    omega
  · by_cases h16 : b.width = 16
    · have he : b.endian_swap = .ok { b with buf := b.buf.map util.swap16 } := by
        simp [data_buffer.endian_swap, h32, h16]
      rw [he] at h
      injection h with h2
      subst h2
      intro x hx
      obtain ⟨y, _, rfl⟩ := List.mem_map.1 hx
      have := util.swap16_lt y
      show util.swap16 y < 2 ^ b.width
      rw [h16]
      omega
    · by_cases h8 : b.width = 8
      · have he : b.endian_swap = .ok b := by
          simp [data_buffer.endian_swap, h32, h16, h8]
        rw [he] at h
        injection h with h2
        subst h2
        exact hwf
      · have he : b.endian_swap = .error .badWidth := by
          simp [data_buffer.endian_swap, h32, h16, h8]
        rw [he] at h
        simp at h

/-- C6: every buffer reachable through construction, `write`, `convert`,
`endian_swap` and `copy` satisfies the masked-range invariant: each element is
below `2 ^ width` for the buffer's current width. -/
theorem reachable_wellformed (b : data_buffer) (h : reachable b) : b.wellformed := by
  induction h with
  | init w data => exact data_buffer.init_wellformed w data
  | write b val b' _ hw ih => exact write_wellformed b val b' ih hw
  | convert b w mode b' _ hc ih => exact convert_wellformed b w mode b' ih hc
  | endian_swap b b' _ hs ih => exact endian_swap_wellformed b b' ih hs
  | copy b _ _ => exact data_buffer.init_wellformed b.width b.buf

/-- C6 witness: a constructed buffer whose initial value needed masking is
well formed. -/
theorem reachable_wellformed_witness : (data_buffer.init 8 [300]).wellformed :=
  reachable_wellformed (data_buffer.init 8 [300]) (reachable.init 8 [300])

/-- The copy of a buffer depends only on its width and elements, not on its
cursors. -/
theorem data_buffer.copy_congr (b b' : data_buffer)
    (h1 : b'.width = b.width) (h2 : b'.buf = b.buf) : b'.copy = b.copy := by
  unfold data_buffer.copy
  rw [h1, h2]

/-- On the three valid widths, `convert8` always succeeds. -/
theorem convert8_ok (b : data_buffer) (mode : Mode)
    (hb : b.width = 8 ∨ b.width = 16 ∨ b.width = 32) :
    ∃ x, b.convert8 mode = .ok x := by
  rcases hb with h | h | h
  · exact ⟨b, data_buffer.convert8_at8 b mode h⟩
  · exact ⟨_, data_buffer.convert8_at16 b mode h⟩
  · exact ⟨_, data_buffer.convert8_at32 b mode h⟩

/-- C9: `md5` returns its digest input together with the receiver itself: the
original width, elements and both cursors are untouched.  The digest input is
a function of the width and elements alone, so two buffers differing only in
their cursor positions hash identically. -/
theorem md5_pure_and_cursor_independent (b : data_buffer) (mode : Mode)
    (hb : b.width = 8 ∨ b.width = 16 ∨ b.width = 32) :
    ∃ bytes, b.md5 mode = .ok (bytes, b) ∧
      ∀ b' : data_buffer, b'.width = b.width → b'.buf = b.buf →
        b'.md5 mode = .ok (bytes, b') := by
  have hcw : b.copy.width = b.width := rfl
  obtain ⟨x, hx⟩ := convert8_ok b.copy mode (by rw [hcw]; exact hb)
  refine ⟨x.buf, ?_, ?_⟩
  · unfold data_buffer.md5
    rw [hx]
  · intro b' h1 h2
    unfold data_buffer.md5
    rw [data_buffer.copy_congr b b' h1 h2, hx]

/-- C9 witness: the hash of a concrete 16-bit buffer with displaced cursors
leaves the buffer unchanged and ignores the cursors. -/
theorem md5_pure_and_cursor_independent_witness :
    ∃ bytes, data_buffer.md5 { width := 16, buf := [0x1234], wr_idx := 7, rd_idx := 5 } .le =
      .ok (bytes, { width := 16, buf := [0x1234], wr_idx := 7, rd_idx := 5 }) ∧
      ∀ b' : data_buffer,
        b'.width = data_buffer.width { width := 16, buf := [0x1234], wr_idx := 7, rd_idx := 5 } →
        b'.buf = data_buffer.buf { width := 16, buf := [0x1234], wr_idx := 7, rd_idx := 5 } →
        b'.md5 .le = .ok (bytes, b') :=
  md5_pure_and_cursor_independent { width := 16, buf := [0x1234], wr_idx := 7, rd_idx := 5 }
    .le (Or.inr (Or.inl rfl))

/-- Unpacking a packed pair of bytes returns the pair: the 8-to-16-to-8 round
trip is the identity on even-length byte lists. -/
theorem unpack16_pack16 (mode : Mode) :
    ∀ l, (∀ x ∈ l, x < 256) → l.length % 2 = 0 →
      (pack16 mode l).flatMap (u8ofu16 mode) = l
  | [] => by
    intro _ _
    simp [pack16]
  | [a] => by
    intro _ hl
    simp at hl
  | a :: b :: rest => by
    intro h hl
    have ha := h a (by simp)
    have hb := h b (by simp)
    have hr : rest.length % 2 = 0 := by
      simp only [List.length_cons] at hl
      omega
    have ih := unpack16_pack16 mode rest (fun x hx => h x (by simp [hx])) hr
    cases mode
    · simp only [pack16, List.flatMap_cons] at ih ⊢
      rw [ih]
      simp only [u8ofu16]
      rw [shl8, lor_eq_add 8 (a * 256) b (by omega) hb]
      simp only [shr8, and255]
      have e1 : (a * 256 + b) / 256 % 256 = a := by omega
      have e2 : (a * 256 + b) % 256 = b := by omega
      rw [e1, e2]
      rfl
    · simp only [pack16, List.flatMap_cons] at ih ⊢
      rw [ih]
      simp only [u8ofu16]
      rw [shl8, Nat.lor_comm, lor_eq_add 8 (b * 256) a (by omega) ha]
      simp only [shr8, and255]
      have e1 : (b * 256 + a) % 256 = a := by omega
      have e2 : (b * 256 + a) / 256 % 256 = b := by omega
      rw [e1, e2]
      rfl

/-- Unpacking a packed quadruple of bytes returns the quadruple: the
8-to-32-to-8 round trip is the identity on byte lists whose length is a
multiple of four. -/
theorem unpack32_pack32 (mode : Mode) :
    ∀ l, (∀ x ∈ l, x < 256) → l.length % 4 = 0 →
      (pack32 mode l).flatMap (u8ofu32 mode) = l
  | [] => by
    intro _ _
    simp [pack32]
  | [a] => by
    intro _ hl
    simp at hl
  | [a, b] => by
    intro _ hl
    simp at hl
  | [a, b, c] => by
    intro _ hl
    simp at hl
  | a :: b :: c :: d :: rest => by
    intro h hl
    have ha := h a (by simp)
    have hb := h b (by simp)
    have hc := h c (by simp)
    have hd := h d (by simp)
    have hr : rest.length % 4 = 0 := by
      simp only [List.length_cons] at hl
      omega
    have ih := unpack32_pack32 mode rest (fun x hx => h x (by simp [hx])) hr
    cases mode
    · simp only [pack32, List.flatMap_cons] at ih ⊢
      rw [ih]
      simp only [u8ofu32]
      rw [shl8, shl16, shl24]
      rw [lor_eq_add 24 (a * 16777216) (b * 65536) (by omega) (by omega)]
      rw [lor_eq_add 16 (a * 16777216 + b * 65536) (c * 256) (by omega) (by omega)]
      rw [lor_eq_add 8 (a * 16777216 + b * 65536 + c * 256) d (by omega) hd]
      simp only [shr8, shr16, shr24, and255]
      have e1 : (a * 16777216 + b * 65536 + c * 256 + d) / 16777216 = a := by omega
      have e2 : (a * 16777216 + b * 65536 + c * 256 + d) / 65536 = a * 256 + b := by omega
      have e3 : (a * 16777216 + b * 65536 + c * 256 + d) / 256 =
        a * 65536 + b * 256 + c := by omega
      have e4 : (a * 16777216 + b * 65536 + c * 256 + d) % 256 = d := by omega
      rw [e1, e2, e3, e4]
      have f1 : a % 256 = a := by omega
      have f2 : (a * 256 + b) % 256 = b := by omega
      have f3 : (a * 65536 + b * 256 + c) % 256 = c := by omega
      rw [f1, f2, f3]
      rfl
    · simp only [pack32, List.flatMap_cons] at ih ⊢
      rw [ih]
      simp only [u8ofu32]
      rw [shl8, shl16, shl24]
      rw [Nat.lor_comm a (b * 256), lor_eq_add 8 (b * 256) a (by omega) ha]
      rw [Nat.lor_comm (b * 256 + a) (c * 65536),
        lor_eq_add 16 (c * 65536) (b * 256 + a) (by omega) (by omega)]
      rw [Nat.lor_comm (c * 65536 + (b * 256 + a)) (d * 16777216),
        lor_eq_add 24 (d * 16777216) (c * 65536 + (b * 256 + a)) (by omega) (by omega)]
      simp only [shr8, shr16, shr24, and255]
      have e1 : (d * 16777216 + (c * 65536 + (b * 256 + a))) % 256 = a := by omega
      have e2 : (d * 16777216 + (c * 65536 + (b * 256 + a))) / 256 =
        d * 65536 + c * 256 + b := by omega
      have e3 : (d * 16777216 + (c * 65536 + (b * 256 + a))) / 65536 =
        d * 256 + c := by omega
      have e4 : (d * 16777216 + (c * 65536 + (b * 256 + a))) / 16777216 = d := by omega
      rw [e1, e2, e3, e4]
      have f1 : (d * 65536 + c * 256 + b) % 256 = b := by omega
      have f2 : (d * 256 + c) % 256 = c := by omega
      have f3 : d % 256 = d := by omega
      rw [f1, f2, f3]
      rfl

/-- Packing the byte decomposition of 32-bit values returns the original
values: the 32-to-8-to-32 round trip is the identity on well-formed 32-bit
element lists. -/
theorem pack32_unpack32 (mode : Mode) :
    ∀ l : List Nat, (∀ x ∈ l, x < 4294967296) →
      pack32 mode (l.flatMap (u8ofu32 mode)) = l
  | [] => by
    intro _
    simp [pack32]
  | x :: rest => by
    intro h
    have hx := h x (by simp)
    have ih := pack32_unpack32 mode rest (fun y hy => h y (by simp [hy]))
    cases mode
    · simp only [List.flatMap_cons, u8ofu32, List.cons_append, List.nil_append] at ih ⊢
      simp only [pack32]
      rw [ih]
      congr 1
      simp only [and255, shr8, shr16, shr24, shl8, shl16, shl24]
      rw [lor_eq_add 24 (x / 16777216 % 256 * 16777216) (x / 65536 % 256 * 65536)
        (by omega) (by omega)]
      rw [lor_eq_add 16 (x / 16777216 % 256 * 16777216 + x / 65536 % 256 * 65536)
        (x / 256 % 256 * 256) (by omega) (by omega)]
      rw [lor_eq_add 8
        (x / 16777216 % 256 * 16777216 + x / 65536 % 256 * 65536 + x / 256 % 256 * 256)
        (x % 256) (by omega) (by omega)]
      omega
    · simp only [List.flatMap_cons, u8ofu32, List.cons_append, List.nil_append] at ih ⊢
      simp only [pack32]
      rw [ih]
      congr 1
      simp only [and255, shr8, shr16, shr24, shl8, shl16, shl24]
      rw [Nat.lor_comm (x % 256) (x / 256 % 256 * 256),
        lor_eq_add 8 (x / 256 % 256 * 256) (x % 256) (by omega) (by omega)]
      rw [Nat.lor_comm (x / 256 % 256 * 256 + x % 256) (x / 65536 % 256 * 65536),
        lor_eq_add 16 (x / 65536 % 256 * 65536) (x / 256 % 256 * 256 + x % 256)
        (by omega) (by omega)]
      rw [Nat.lor_comm (x / 65536 % 256 * 65536 + (x / 256 % 256 * 256 + x % 256))
        (x / 16777216 % 256 * 16777216),
        lor_eq_add 24 (x / 16777216 % 256 * 16777216)
        (x / 65536 % 256 * 65536 + (x / 256 % 256 * 256 + x % 256)) (by omega) (by omega)]
      omega

/-- Splitting 32-bit values into halves and then into bytes gives the same
byte stream as splitting them into bytes directly. -/
theorem flatMap_u8ofu16_u16ofu32 (mode : Mode) :
    ∀ l : List Nat, (∀ x ∈ l, x < 4294967296) →
      (l.flatMap (u16ofu32 mode)).flatMap (u8ofu16 mode) = l.flatMap (u8ofu32 mode)
  | [] => by
    intro _
    simp
  | x :: rest => by
    intro h
    have hx := h x (by simp)
    have ih := flatMap_u8ofu16_u16ofu32 mode rest (fun y hy => h y (by simp [hy]))
    cases mode
    · simp only [List.flatMap_cons, List.flatMap_append] at ih ⊢
      rw [ih]
      congr 1
      simp only [u16ofu32, u8ofu16, u8ofu32, List.flatMap_cons, List.flatMap_nil,
        List.append_nil, List.cons_append, List.nil_append]
      simp only [and255, and65535, shr8, shr16, shr24]
      have c1 : x / 65536 % 65536 / 256 % 256 = x / 16777216 % 256 := by omega
      have c2 : x / 65536 % 65536 % 256 = x / 65536 % 256 := by omega
      have c3 : x % 65536 / 256 % 256 = x / 256 % 256 := by omega
      have c4 : x % 65536 % 256 = x % 256 := by omega
      rw [c1, c2, c3, c4]
    · simp only [List.flatMap_cons, List.flatMap_append] at ih ⊢
      rw [ih]
      congr 1
      simp only [u16ofu32, u8ofu16, u8ofu32, List.flatMap_cons, List.flatMap_nil,
        List.append_nil, List.cons_append, List.nil_append]
      simp only [and255, and65535, shr8, shr16, shr24]
      have c1 : x % 65536 % 256 = x % 256 := by omega
      have c2 : x % 65536 / 256 % 256 = x / 256 % 256 := by omega
      have c3 : x / 65536 % 65536 % 256 = x / 65536 % 256 := by omega
      have c4 : x / 65536 % 65536 / 256 % 256 = x / 16777216 % 256 := by omega
      rw [c1, c2, c3, c4]

/-- Byte decomposition of 32-bit values quadruples the length. -/
theorem length_flatMap_u8ofu32 (mode : Mode) :
    ∀ l : List Nat, (l.flatMap (u8ofu32 mode)).length = 4 * l.length
  | [] => by simp
  | x :: rest => by
    have ih := length_flatMap_u8ofu32 mode rest
    cases mode <;> simp [u8ofu32, ih] <;> ring

/-- Byte decomposition of 16-bit values doubles the length. -/
theorem length_flatMap_u8ofu16 (mode : Mode) :
    ∀ l : List Nat, (l.flatMap (u8ofu16 mode)).length = 2 * l.length
  | [] => by simp
  | x :: rest => by
    have ih := length_flatMap_u8ofu16 mode rest
    cases mode <;> simp [u8ofu16, ih] <;> ring

/-- Half decomposition of 32-bit values doubles the length. -/
theorem length_flatMap_u16ofu32 (mode : Mode) :
    ∀ l : List Nat, (l.flatMap (u16ofu32 mode)).length = 2 * l.length
  | [] => by simp
  | x :: rest => by
    have ih := length_flatMap_u16ofu32 mode rest
    cases mode <;> simp [u16ofu32, ih] <;> ring

/-- C3: for every well-formed buffer and byte order, each conversion pair with
a defined inverse (8 to 16 to 8, 8 to 32 to 8, 32 to 8 to 32, and 32 to 16 to
8 to 32) reproduces the original element sequence, exactly when the original
length met the required alignment and with trailing zero padding otherwise. -/
theorem convert_round_trip (b : data_buffer) (mode : Mode) (hwf : b.wellformed) :
    (b.width = 8 → ∃ b1 b2, b.convert 16 mode = .ok b1 ∧ b1.convert 8 mode = .ok b2 ∧
      (∃ n, b2.buf = b.buf ++ List.replicate n 0) ∧
      (b.buf.length % 2 = 0 → b2.buf = b.buf)) ∧
    (b.width = 8 → ∃ b1 b2, b.convert 32 mode = .ok b1 ∧ b1.convert 8 mode = .ok b2 ∧
      (∃ n, b2.buf = b.buf ++ List.replicate n 0) ∧
      (b.buf.length % 4 = 0 → b2.buf = b.buf)) ∧
    (b.width = 32 → ∃ b1 b2, b.convert 8 mode = .ok b1 ∧ b1.convert 32 mode = .ok b2 ∧
      b2.buf = b.buf) ∧
    (b.width = 32 → ∃ b1 b2 b3, b.convert 16 mode = .ok b1 ∧ b1.convert 8 mode = .ok b2 ∧
      b2.convert 32 mode = .ok b3 ∧ b3.buf = b.buf) := by
  refine ⟨?_, ?_, ?_, ?_⟩
  · intro h8
    have hb8 : ∀ x ∈ b.buf, x < 256 := fun x hx => by
      have := hwf x hx
      rw [h8] at this
      omega
    have hpadb : ∀ x ∈ b.buf ++ List.replicate (b.buf.length &&& 1) 0, x < 256 := by
      intro x hx
      rcases List.mem_append.1 hx with hx | hx
      · exact hb8 x hx
      · have := List.eq_of_mem_replicate hx
        omega
    have hpadl : (b.buf ++ List.replicate (b.buf.length &&& 1) 0).length % 2 = 0 := by
      simp only [List.length_append, List.length_replicate, and1]
      omega
    refine ⟨_, _,
      (data_buffer.convert_to16 b mode).trans (data_buffer.convert16_at8 b mode h8),
      (data_buffer.convert_to8 _ mode).trans (data_buffer.convert8_at16 _ mode rfl),
      ⟨b.buf.length &&& 1, ?_⟩, ?_⟩
    · exact unpack16_pack16 mode _ hpadb hpadl
    · intro he
      show (pack16 mode (b.buf ++ List.replicate (b.buf.length &&& 1) 0)).flatMap
        (u8ofu16 mode) = b.buf
      have h1 : b.buf.length &&& 1 = 0 := by
        rw [and1]
        exact he
      rw [h1]
      simp only [List.replicate_zero, List.append_nil]
      exact unpack16_pack16 mode b.buf hb8 he
  · intro h8
    have hb8 : ∀ x ∈ b.buf, x < 256 := fun x hx => by
      have := hwf x hx
      rw [h8] at this
      omega
    have hpadb : ∀ x ∈ b.buf ++ List.replicate ((4 - (b.buf.length &&& 3)) &&& 3) 0,
        x < 256 := by
      intro x hx
      rcases List.mem_append.1 hx with hx | hx
      · exact hb8 x hx
      · have := List.eq_of_mem_replicate hx
        omega
    have hpadl :
        (b.buf ++ List.replicate ((4 - (b.buf.length &&& 3)) &&& 3) 0).length % 4 = 0 := by
      simp only [List.length_append, List.length_replicate, and3]
      omega
    refine ⟨_, _,
      (data_buffer.convert_to32 b mode).trans (data_buffer.convert32_at8 b mode h8),
      (data_buffer.convert_to8 _ mode).trans (data_buffer.convert8_at32 _ mode rfl),
      ⟨(4 - (b.buf.length &&& 3)) &&& 3, ?_⟩, ?_⟩
    · exact unpack32_pack32 mode _ hpadb hpadl
    · intro he
      show (pack32 mode (b.buf ++ List.replicate ((4 - (b.buf.length &&& 3)) &&& 3) 0)).flatMap
        (u8ofu32 mode) = b.buf
      have h1 : (4 - (b.buf.length &&& 3)) &&& 3 = 0 := by
        rw [and3, and3]
        omega
      rw [h1]
      simp only [List.replicate_zero, List.append_nil]
      exact unpack32_pack32 mode b.buf hb8 he
  · intro h32
    have hb32 : ∀ x ∈ b.buf, x < 4294967296 := fun x hx => by
      have := hwf x hx
      rw [h32] at this
      omega
    refine ⟨_, _,
      (data_buffer.convert_to8 b mode).trans (data_buffer.convert8_at32 b mode h32),
      (data_buffer.convert_to32 _ mode).trans (data_buffer.convert32_at8 _ mode rfl), ?_⟩
    show pack32 mode (b.buf.flatMap (u8ofu32 mode) ++
      List.replicate ((4 - ((b.buf.flatMap (u8ofu32 mode)).length &&& 3)) &&& 3) 0) = b.buf
    have hlen : (b.buf.flatMap (u8ofu32 mode)).length &&& 3 = 0 := by
      rw [and3, length_flatMap_u8ofu32]
      omega
    rw [hlen]
    have h40 : ((4 - (0 : Nat)) &&& 3) = 0 := by decide
    rw [h40]
    simp only [List.replicate_zero, List.append_nil]
    exact pack32_unpack32 mode b.buf hb32
  · intro h32
    have hb32 : ∀ x ∈ b.buf, x < 4294967296 := fun x hx => by
      have := hwf x hx
      rw [h32] at this
      omega
    have hcomp : (b.buf.flatMap (u16ofu32 mode)).flatMap (u8ofu16 mode) =
        b.buf.flatMap (u8ofu32 mode) := flatMap_u8ofu16_u16ofu32 mode b.buf hb32
    refine ⟨_, _, _,
      (data_buffer.convert_to16 b mode).trans (data_buffer.convert16_at32 b mode h32),
      (data_buffer.convert_to8 _ mode).trans (data_buffer.convert8_at16 _ mode rfl),
      (data_buffer.convert_to32 _ mode).trans (data_buffer.convert32_at8 _ mode rfl), ?_⟩
    show pack32 mode ((b.buf.flatMap (u16ofu32 mode)).flatMap (u8ofu16 mode) ++
      List.replicate
        ((4 - (((b.buf.flatMap (u16ofu32 mode)).flatMap (u8ofu16 mode)).length &&& 3)) &&& 3)
        0) = b.buf
    have hlen : ((b.buf.flatMap (u16ofu32 mode)).flatMap (u8ofu16 mode)).length &&& 3 = 0 := by
      rw [and3, hcomp, length_flatMap_u8ofu32]
      omega
    rw [hlen]
    have h40 : ((4 - (0 : Nat)) &&& 3) = 0 := by decide
    rw [h40]
    simp only [List.replicate_zero, List.append_nil]
    rw [hcomp]
    exact pack32_unpack32 mode b.buf hb32

/-- C3 witness: the 8-to-16-to-8 round trip at a concrete odd-length buffer. -/
theorem convert_round_trip_witness :
    ∃ b1 b2, (data_buffer.init 8 [1, 2, 3]).convert 16 .le = .ok b1 ∧
      b1.convert 8 .le = .ok b2 ∧
      (∃ n, b2.buf = (data_buffer.init 8 [1, 2, 3]).buf ++ List.replicate n 0) ∧
      ((data_buffer.init 8 [1, 2, 3]).buf.length % 2 = 0 →
        b2.buf = (data_buffer.init 8 [1, 2, 3]).buf) :=
  (convert_round_trip (data_buffer.init 8 [1, 2, 3]) .le
    (by unfold data_buffer.wellformed; decide)).1 rfl
